import Mathlib

/-!
Shallow embedding of the linguistic feature extraction and ranking engine of
the ArXiv-fetching repository (src/arxiv_fetcher.py and src/af.py).

The dependency parser / tokenizer (spaCy's `nlp`) is an external collaborator;
it is modelled as an injected capability `classify : String → List Token`
returning, for a text, the sequence of tokens with the attributes the core
consumes: surface text, is-alphabetic flag, is-stopword flag, dependency-role
label, and the left/right dependents (of which only surface text and
dependency role are read).

Python strings are modelled as Lean `String` (a list of characters);
`str.lower` is modelled characterwise, `str.count` as non-overlapping
left-to-right substring counting (with the Python convention that the empty
needle occurs `len(s) + 1` times), and `sub in s` as substring containment.
`collections.Counter` iterates its keys in first-insertion order, and
`Counter.most_common(n)` is a stable sort by count descending truncated to
`n` (empty for `n ≤ 0`); Python's `sorted(..., reverse=True)` is a stable
descending sort, modelled by insertion sort with a key-based total preorder.
-/

/-- A dependent of a token, as consumed by `extract_svo`: only its surface
text and dependency-role label are read. -/
structure DepTok where
  text : String
  dep : String
deriving DecidableEq

/-- A token produced by the classifier collaborator, carrying exactly the
attributes the core reads. -/
structure Token where
  text : String
  is_alpha : Bool
  is_stop : Bool
  dep : String
  lefts : List DepTok
  rights : List DepTok
deriving DecidableEq

/-- A paper record as produced by the paper-source collaborator. -/
structure Paper where
  title : String
  authors : List String
  summary : String
deriving DecidableEq

/-- Characterwise lowercasing, modelling Python `str.lower()`. -/
def lowerStr (s : String) : List Char :=
  s.data.map Char.toLower

/-- The stopword-filtered token stream: surface texts of tokens with
`token.is_alpha and not token.is_stop` (the comprehension shared by
`preprocess_text` and `extract_keywords` in src/arxiv_fetcher.py). -/
def filteredTexts (doc : List Token) : List String :=
  doc.filterMap (fun t => if t.is_alpha && !t.is_stop then some t.text else none)

/-- src/arxiv_fetcher.py `preprocess_text`: join the filtered surface texts
with single spaces. -/
def preprocess_text (classify : String → List Token) (text : String) : String :=
  String.intercalate " " (filteredTexts (classify text))

/-- Helper for `firstOccs`: the elements of the list not in `seen`, first
occurrences only, in order. -/
def firstOccsAux : List String → List String → List String
  | _, [] => []
  | seen, w :: ws =>
    if seen.contains w then firstOccsAux seen ws
    else w :: firstOccsAux (w :: seen) ws

/-- The distinct elements of a list in order of first occurrence; this is the
key-iteration order of a Python `Counter` built from the list. -/
def firstOccs (l : List String) : List String :=
  firstOccsAux [] l

/-- Python `collections.Counter` over a list of words: each distinct word, in
first-occurrence order, paired with its number of occurrences. -/
def counter (l : List String) : List (String × Nat) :=
  (firstOccs l).map (fun w => (w, l.count w))

/-- Descending preorder induced by a natural-number key: `a` precedes `b`
when `key b ≤ key a`. -/
def keyRel {α : Type} (key : α → Nat) : α → α → Prop :=
  fun a b => key b ≤ key a

instance {α : Type} (key : α → Nat) : DecidableRel (keyRel key) :=
  fun _ _ => Nat.decLe _ _

instance {α : Type} (key : α → Nat) : IsTotal α (keyRel key) :=
  ⟨fun a b => Nat.le_total (key b) (key a)⟩

instance {α : Type} (key : α → Nat) : IsTrans α (keyRel key) :=
  ⟨fun _ _ _ h₁ h₂ => Nat.le_trans h₂ h₁⟩

/-- Stable descending sort by a natural-number key, modelling Python's stable
`sorted(..., key=key, reverse=True)`. -/
def sortDescBy {α : Type} (key : α → Nat) (l : List α) : List α :=
  List.insertionSort (keyRel key) l

/-- Python `Counter.most_common(n)`: stable sort by count descending, then
the first `n` entries (none when `n ≤ 0`). -/
def most_common (freq : List (String × Nat)) (n : Int) : List (String × Nat) :=
  (sortDescBy Prod.snd freq).take n.toNat

/-- src/arxiv_fetcher.py `extract_keywords`: filter the classified tokens to
alphabetic non-stopwords, count occurrences per surface text, and return the
`top_n` most common. -/
def extract_keywords (classify : String → List Token) (text : String) (top_n : Int) :
    List (String × Nat) :=
  let keywords := filteredTexts (classify text)
  let keyword_freq := counter keywords
  most_common keyword_freq top_n

/-- The subject-role dependency labels tested by `extract_svo`. -/
def subjDeps : List String := ["nsubj", "nsubjpass"]

/-- The object-role dependency labels tested by `extract_svo`. -/
def objDeps : List String := ["dobj", "pobj", "attr"]

/-- src/arxiv_fetcher.py and src/af.py `extract_svo` (the two copies are
identical): for each token whose dependency label is ROOT, collect the surface
texts of its subject-role left dependents and object-role right dependents,
and emit the triple of first subject, root text, and first object when both
lists are non-empty. -/
def extract_svo (classify : String → List Token) (text : String) :
    List (String × String × String) :=
  (classify text).foldr
    (fun token svos =>
      if token.dep == "ROOT" then
        let subjects := (token.lefts.filter (fun w => subjDeps.contains w.dep)).map
          (fun w => w.text)
        let objects := (token.rights.filter (fun w => objDeps.contains w.dep)).map
          (fun w => w.text)
        match subjects, objects with
        | s :: _, o :: _ => (s, token.text, o) :: svos
        | _, _ => svos
      else svos)
    []

/-- The triple the specification words assign to one clause root: the first
subject-role left dependent and the first object-role right dependent, with a
triple emitted only when both exist. -/
def svo_of_root (t : Token) : Option (String × String × String) :=
  match t.lefts.find? (fun w => subjDeps.contains w.dep),
      t.rights.find? (fun w => objDeps.contains w.dep) with
  | some s, some o => some (s.text, t.text, o.text)
  | _, _ => none

/-- src/af.py `emphasize_keywords`: project the object field of each triple,
preserving order. -/
def emphasize_keywords (svos : List (String × String × String)) : List String :=
  svos.map (fun svo => svo.2.2)

/-- One keyword line of src/arxiv_fetcher.py `summarize_papers`. -/
def keywordLine (e : String × Nat) : String :=
  "- " ++ e.1 ++ ": " ++ toString e.2 ++ " occurrences"

/-- The keyword lines src/arxiv_fetcher.py `summarize_papers` prints for one
paper: `extract_keywords` (with the default top-10) applied to the
preprocessed summary, one line per keyword. -/
def summarize_keyword_lines (classify : String → List Token) (paper : Paper) :
    List String :=
  (extract_keywords classify (preprocess_text classify paper.summary) 10).map keywordLine

/-- Python `str.count(sub)` over character lists: the number of
non-overlapping occurrences of `sub`, scanning left to right; the empty
needle occurs `len(s) + 1` times. -/
def countOccs (sub : List Char) : List Char → Nat
  | [] => if sub.isEmpty then 1 else 0
  | c :: rest =>
    if sub.isEmpty then (c :: rest).length + 1
    else if sub.isPrefixOf (c :: rest) then
      1 + countOccs sub (rest.drop (sub.length - 1))
    else countOccs sub rest
termination_by s => s.length
decreasing_by
  · simp only [List.length_cons, List.length_drop]
    omega
  · simp only [List.length_cons]
    omega

/-- Python substring containment `sub in s` over character lists. -/
def containsSub (sub : List Char) : List Char → Bool
  | [] => sub.isEmpty
  | c :: rest => sub.isPrefixOf (c :: rest) || containsSub sub rest

/-- src/arxiv_fetcher.py `filter_papers_by_author`: keep papers whose lowered
author list contains the lowered author name as a member (exact match). -/
def filter_papers_by_author (papers : List Paper) (author_name : String) : List Paper :=
  papers.filter (fun paper => (paper.authors.map lowerStr).contains (lowerStr author_name))

/-- src/arxiv_fetcher.py `search_papers_by_title`: keep papers whose lowered
title contains the lowered keyword as a substring. -/
def search_papers_by_title (papers : List Paper) (keyword : String) : List Paper :=
  papers.filter (fun paper => containsSub (lowerStr keyword) (lowerStr paper.title))

/-- The inner `keyword_count` of src/arxiv_fetcher.py `rank_papers_by_keyword`:
`summary.lower().count(keyword.lower())`. -/
def keyword_count (keyword : String) (summary : String) : Nat :=
  countOccs (lowerStr keyword) (lowerStr summary)

/-- src/arxiv_fetcher.py `rank_papers_by_keyword`: stable sort of the papers
by `keyword_count` of their summaries, descending. -/
def rank_papers_by_keyword (papers : List Paper) (keyword : String) : List Paper :=
  sortDescBy (fun paper => keyword_count keyword paper.summary) papers

/-- An alphabetic, non-stopword token with no dependency structure. -/
def plainTok (s : String) : Token :=
  { text := s, is_alpha := true, is_stop := false, dep := "", lefts := [], rights := [] }

/-- An alphabetic token flagged as a stopword. -/
def stopTok (s : String) : Token :=
  { text := s, is_alpha := true, is_stop := true, dep := "", lefts := [], rights := [] }

/-- A classifier that is not stable under preprocessing: the token of the
original text is re-classified as a stopword when the preprocessed text is
classified a second time. -/
def cexClassify (s : String) : List Token :=
  if s = "w" then [stopTok "w"] else [plainTok "w"]

/-- A classifier stable under preprocessing: every non-empty text is one
alphabetic non-stopword token whose surface text is the text itself. -/
def idClassify (s : String) : List Token :=
  if s = "" then [] else [plainTok s]

/-- A classifier producing two case variants of one word as separate
alphabetic non-stopword tokens. -/
def caseClassify (_ : String) : List Token :=
  [plainTok "Cat", plainTok "cat", plainTok "Cat"]

/-- Demonstration papers mirroring the concrete scenarios of the spec. -/
def paperJane : Paper :=
  { title := "Deep Learning", authors := ["Jane Doe"], summary := "ai ai ai" }

def paperJohn : Paper :=
  { title := "Quantum Computing", authors := ["John Smith"], summary := "ai" }

def paperAlice : Paper :=
  { title := "Biology", authors := ["Alice"], summary := "none" }

def demoPapers : List Paper := [paperJane, paperJohn, paperAlice]

def paperS : Paper := { title := "t", authors := [], summary := "s" }

def paperCat : Paper := { title := "t", authors := [], summary := "cat" }

theorem mem_firstOccsAux (x : String) :
    ∀ (seen l : List String), x ∈ firstOccsAux seen l ↔ x ∈ l ∧ x ∉ seen
  | seen, [] => by simp [firstOccsAux]
  | seen, w :: ws => by
    by_cases hw : seen.contains w
    · rw [firstOccsAux, if_pos hw, mem_firstOccsAux x seen ws]
      have hwseen : w ∈ seen := List.elem_iff.mp hw
      constructor
      · rintro ⟨hx, hns⟩
        exact ⟨List.mem_cons_of_mem _ hx, hns⟩
      · rintro ⟨hx, hns⟩
        rcases List.mem_cons.mp hx with rfl | hx
        · exact absurd hwseen hns
        · exact ⟨hx, hns⟩
    · rw [firstOccsAux, if_neg hw]
      have hwseen : w ∉ seen := fun hc => hw (List.elem_iff.mpr hc)
      constructor
      · intro hx
        rcases List.mem_cons.mp hx with rfl | hx
        · exact ⟨List.mem_cons_self _ _, hwseen⟩
        · rcases (mem_firstOccsAux x (w :: seen) ws).mp hx with ⟨h1, h2⟩
          exact ⟨List.mem_cons_of_mem _ h1, fun hc => h2 (List.mem_cons_of_mem _ hc)⟩
      · rintro ⟨hx, hns⟩
        rcases List.mem_cons.mp hx with rfl | hx
        · exact List.mem_cons_self _ _
        · by_cases hxw : x = w
          · subst hxw
            exact List.mem_cons_self _ _
          · refine List.mem_cons_of_mem _
              ((mem_firstOccsAux x (w :: seen) ws).mpr ⟨hx, fun hc => ?_⟩)
            rcases List.mem_cons.mp hc with h | h
            · exact hxw h
            · exact hns h

theorem mem_firstOccs (x : String) (l : List String) : x ∈ firstOccs l ↔ x ∈ l := by
  rw [firstOccs, mem_firstOccsAux]
  simp

theorem nodup_firstOccsAux : ∀ (seen l : List String), (firstOccsAux seen l).Nodup
  | _, [] => List.nodup_nil
  | seen, w :: ws => by
    by_cases hw : seen.contains w
    · rw [firstOccsAux, if_pos hw]
      exact nodup_firstOccsAux seen ws
    · rw [firstOccsAux, if_neg hw]
      refine List.nodup_cons.mpr ⟨fun hc => ?_, nodup_firstOccsAux (w :: seen) ws⟩
      exact ((mem_firstOccsAux w (w :: seen) ws).mp hc).2 (List.mem_cons_self _ _)

theorem nodup_firstOccs (l : List String) : (firstOccs l).Nodup :=
  nodup_firstOccsAux [] l

theorem firstOccsAux_length_le :
    ∀ (seen l : List String), (firstOccsAux seen l).length ≤ l.length
  | _, [] => Nat.le_refl _
  | seen, w :: ws => by
    by_cases hw : seen.contains w
    · rw [firstOccsAux, if_pos hw]
      exact Nat.le_trans (firstOccsAux_length_le seen ws) (Nat.le_succ _)
    · rw [firstOccsAux, if_neg hw]
      simpa using Nat.succ_le_succ (firstOccsAux_length_le (w :: seen) ws)

theorem firstOccs_length_le (l : List String) : (firstOccs l).length ≤ l.length :=
  firstOccsAux_length_le [] l

/-- Inserting an element into a list commutes with filtering on a fixed key
value: the insertion point is always past elements with strictly larger keys,
so elements of any one key value keep their relative order. -/
theorem filter_orderedInsert_key {α : Type} (key : α → Nat) (k : Nat) (x : α) :
    ∀ l : List α,
      (List.orderedInsert (keyRel key) x l).filter (fun y => key y == k)
        = if key x == k then x :: l.filter (fun y => key y == k)
          else l.filter (fun y => key y == k)
  | [] => by
    simp only [List.orderedInsert, List.filter]
    split <;> simp_all
  | y :: ys => by
    by_cases hxy : keyRel key x y
    · simp only [List.orderedInsert, if_pos hxy]
      by_cases hk : key x == k
      · simp [List.filter_cons, hk]
      · simp [List.filter_cons, hk]
    · have hgt : key x < key y := Nat.lt_of_not_le hxy
      simp only [List.orderedInsert, if_neg hxy]
      by_cases hk : key x == k
      · have hky : ¬ (key y == k) := by
          simp only [beq_iff_eq] at hk ⊢
          omega
        simp only [List.filter_cons, if_neg hky, filter_orderedInsert_key key k x ys,
          if_pos hk, hky]
        simp
      · by_cases hky : key y == k
        · simp only [List.filter_cons, hky, filter_orderedInsert_key key k x ys, if_neg hk]
        · simp only [List.filter_cons, filter_orderedInsert_key key k x ys, if_neg hk]

/-- Stability of the descending sort: restricting the output to any one key
value yields exactly the input's elements of that key value, in input order. -/
theorem filter_sortDescBy_key {α : Type} (key : α → Nat) (k : Nat) :
    ∀ l : List α,
      (sortDescBy key l).filter (fun y => key y == k) = l.filter (fun y => key y == k)
  | [] => rfl
  | x :: xs => by
    have ih := filter_sortDescBy_key key k xs
    simp only [sortDescBy, List.insertionSort] at ih ⊢
    rw [filter_orderedInsert_key key k x (List.insertionSort (keyRel key) xs), ih]
    by_cases hk : key x == k
    · simp [List.filter_cons, hk]
    · simp [List.filter_cons, hk]

/-- The descending sort is sorted with respect to its key preorder. -/
theorem sorted_sortDescBy {α : Type} (key : α → Nat) (l : List α) :
    List.Sorted (keyRel key) (sortDescBy key l) :=
  List.sorted_insertionSort (keyRel key) l

/-- The descending sort is a permutation of its input. -/
theorem perm_sortDescBy {α : Type} (key : α → Nat) (l : List α) :
    List.Perm (sortDescBy key l) l :=
  List.perm_insertionSort (keyRel key) l

/-- The first element satisfying a predicate is the head of the filtered list. -/
theorem find?_eq_filter_head? {α : Type} (p : α → Bool) :
    ∀ l : List α, l.find? p = (l.filter p).head?
  | [] => rfl
  | a :: l => by
    by_cases h : p a
    · rw [List.find?_cons_of_pos _ h, List.filter_cons_of_pos h, List.head?_cons]
    · rw [List.find?_cons_of_neg _ h, List.filter_cons_of_neg h,
        find?_eq_filter_head? p l]

/-- C1: For every token stream returned by the classifier, `extract_svo`
emits exactly one triple per ROOT-labelled token having at least one
subject-role left dependent and at least one object-role right dependent,
namely the surface texts of the first such left dependent, the root, and the
first such right dependent; a root lacking either contributes nothing, and
triples appear in parse order of the roots. -/
theorem extract_svo_one_triple_per_root (classify : String → List Token) (text : String) :
    extract_svo classify text
      = (classify text).filterMap
          (fun t => if t.dep == "ROOT" then svo_of_root t else none) := by
  unfold extract_svo
  induction classify text with
  | nil => rfl
  | cons t doc ih =>
    rw [List.foldr_cons, List.filterMap_cons, ih]
    by_cases hroot : t.dep == "ROOT"
    · have hs := find?_eq_filter_head? (fun w => subjDeps.contains w.dep) t.lefts
      have ho := find?_eq_filter_head? (fun w => objDeps.contains w.dep) t.rights
      simp only [if_pos hroot]
      rcases hS : t.lefts.filter (fun w => subjDeps.contains w.dep) with _ | ⟨s, S⟩ <;>
        rcases hO : t.rights.filter (fun w => objDeps.contains w.dep) with _ | ⟨o, O⟩ <;>
        rw [hS] at hs <;> rw [hO] at ho <;>
        simp only [List.head?_nil, List.head?_cons] at hs ho <;>
        simp only [hS, hO, List.map_nil, List.map_cons, svo_of_root, hs, ho]
    · simp only [if_neg hroot]

/-- Unfolding of `extract_keywords` as the truncated stable sort of the
counter of the filtered token stream. -/
theorem extract_keywords_eq (classify : String → List Token) (text : String) (n : Int) :
    extract_keywords classify text n
      = (sortDescBy Prod.snd (counter (filteredTexts (classify text)))).take n.toNat :=
  rfl

/-- C3: the output of `extract_keywords` is ordered by count descending, and
entries with equal counts appear as a sublist of the counter list, which
lists the distinct words in order of first occurrence in the stopword-filtered
token stream: ties keep first-occurrence order. -/
theorem extract_keywords_sorted_stable (classify : String → List Token) (text : String)
    (n : Int) (k : Nat) :
    List.Sorted (keyRel Prod.snd) (extract_keywords classify text n)
    ∧ List.Sublist
        ((extract_keywords classify text n).filter (fun e => e.2 == k))
        ((counter (filteredTexts (classify text))).filter (fun e => e.2 == k)) := by
  rw [extract_keywords_eq]
  constructor
  · exact List.Pairwise.sublist (List.take_sublist _ _) (sorted_sortDescBy Prod.snd _)
  · have h := filter_sortDescBy_key Prod.snd k (counter (filteredTexts (classify text)))
    rw [← h]
    exact List.Sublist.filter _ (List.take_sublist _ _)

/-- C7: the length of the output of `extract_keywords` is at most `top_n`;
for `top_n ≤ 0` the output is empty; and when the classifier returns no
alphabetic token (as it does on empty or whitespace-only text) the output is
empty as well. -/
theorem extract_keywords_topn_bound (classify : String → List Token) (text : String)
    (n : Int) :
    (extract_keywords classify text n).length ≤ n.toNat
    ∧ (n ≤ 0 → extract_keywords classify text n = [])
    ∧ ((∀ t ∈ classify text, t.is_alpha = false) → extract_keywords classify text n = []) := by
  refine ⟨?_, ?_, ?_⟩
  · rw [extract_keywords_eq]
    exact List.length_take_le _ _
  · intro hn
    rw [extract_keywords_eq, Int.toNat_of_nonpos hn, List.take_zero]
  · intro h
    have hft : filteredTexts (classify text) = [] := by
      simp only [filteredTexts, List.filterMap_eq_nil_iff]
      intro t ht
      rw [h t ht]
      simp
    rw [extract_keywords_eq, hft]
    have hz : sortDescBy Prod.snd (counter []) = [] := rfl
    rw [hz, List.take_nil]

/-- C7 witness: at `top_n = -1` with a classifier returning no alphabetic
token, the bound and both emptiness cases hold. -/
theorem extract_keywords_topn_bound_witness :
    (extract_keywords idClassify "" (-1)).length ≤ (-1 : Int).toNat
    ∧ extract_keywords idClassify "" (-1) = []
    ∧ extract_keywords idClassify "" (-1) = [] :=
  ⟨(extract_keywords_topn_bound idClassify "" (-1)).1,
    (extract_keywords_topn_bound idClassify "" (-1)).2.1 (by decide),
    (extract_keywords_topn_bound idClassify "" (-1)).2.2 (by decide)⟩

/-- C8: every keyword emitted by `extract_keywords` is the surface text of
some classified token that is alphabetic and not a stopword; stopwords and
non-alphabetic tokens never appear. -/
theorem extract_keywords_no_stopwords (classify : String → List Token) (text : String)
    (n : Int) (w : String) (c : Nat)
    (h : (w, c) ∈ extract_keywords classify text n) :
    ∃ t ∈ classify text, t.text = w ∧ t.is_alpha = true ∧ t.is_stop = false := by
  rw [extract_keywords_eq] at h
  have h1 : (w, c) ∈ sortDescBy Prod.snd (counter (filteredTexts (classify text))) :=
    List.mem_of_mem_take h
  have h2 : (w, c) ∈ counter (filteredTexts (classify text)) :=
    (perm_sortDescBy _ _).mem_iff.mp h1
  have h3 : w ∈ firstOccs (filteredTexts (classify text)) := by
    rcases List.mem_map.mp h2 with ⟨v, hv, heq⟩
    injection heq with hv1 hv2
    rw [← hv1]
    exact hv
  have h4 : w ∈ filteredTexts (classify text) := (mem_firstOccs _ _).mp h3
  rcases List.mem_filterMap.mp h4 with ⟨t, ht, hf⟩
  refine ⟨t, ht, ?_⟩
  by_cases hcond : t.is_alpha && !t.is_stop
  · rw [if_pos hcond] at hf
    injection hf with hf
    simp only [Bool.and_eq_true, Bool.not_eq_true'] at hcond
    exact ⟨hf, hcond.1, hcond.2⟩
  · rw [if_neg hcond] at hf
    cases hf

/-- C8 witness: with the identity-like classifier on text cat, the single
emitted keyword comes from an alphabetic non-stopword token. -/
theorem extract_keywords_no_stopwords_witness :
    ∃ t ∈ idClassify "cat", t.text = "cat" ∧ t.is_alpha = true ∧ t.is_stop = false :=
  extract_keywords_no_stopwords idClassify "cat" 10 "cat" 1 (by decide)

/-- C9: `extract_keywords` counts are keyed on the exact surface text (no
lowercasing): every emitted count is the number of exactly-equal occurrences
in the filtered stream, and two alphabetic non-stopword tokens whose texts
differ only in case each appear as their own keyword with their own count
(taking `top_n` large enough to keep every distinct keyword). -/
theorem extract_keywords_case_sensitive (classify : String → List Token) (text : String)
    (t1 t2 : Token) (h1 : t1 ∈ classify text) (h2 : t2 ∈ classify text)
    (ha1 : t1.is_alpha = true) (hs1 : t1.is_stop = false)
    (ha2 : t2.is_alpha = true) (hs2 : t2.is_stop = false)
    (hne : t1.text ≠ t2.text) (hcase : lowerStr t1.text = lowerStr t2.text) :
    (∀ w c, (w, c) ∈ extract_keywords classify text ((classify text).length : Int)
        → c = (filteredTexts (classify text)).count w)
    ∧ (t1.text, (filteredTexts (classify text)).count t1.text)
        ∈ extract_keywords classify text ((classify text).length : Int)
    ∧ (t2.text, (filteredTexts (classify text)).count t2.text)
        ∈ extract_keywords classify text ((classify text).length : Int) := by
  have hfull : extract_keywords classify text ((classify text).length : Int)
      = sortDescBy Prod.snd (counter (filteredTexts (classify text))) := by
    rw [extract_keywords_eq, Int.toNat_ofNat]
    apply List.take_of_length_le
    rw [(perm_sortDescBy _ _).length_eq]
    calc (counter (filteredTexts (classify text))).length
        = (firstOccs (filteredTexts (classify text))).length := by
          rw [counter, List.length_map]
      _ ≤ (filteredTexts (classify text)).length := firstOccs_length_le _
      _ ≤ (classify text).length := List.length_filterMap_le _ _
  have hmemft : ∀ t : Token, t ∈ classify text → t.is_alpha = true → t.is_stop = false
      → t.text ∈ filteredTexts (classify text) := by
    intro t ht hta hts
    apply List.mem_filterMap.mpr
    refine ⟨t, ht, ?_⟩
    rw [hta, hts]
    rfl
  have hmemkw : ∀ t : Token, t ∈ classify text → t.is_alpha = true → t.is_stop = false
      → (t.text, (filteredTexts (classify text)).count t.text)
        ∈ extract_keywords classify text ((classify text).length : Int) := by
    intro t ht hta hts
    rw [hfull]
    apply (perm_sortDescBy _ _).mem_iff.mpr
    apply List.mem_map.mpr
    exact ⟨t.text, (mem_firstOccs _ _).mpr (hmemft t ht hta hts), rfl⟩
  refine ⟨?_, hmemkw t1 h1 ha1 hs1, hmemkw t2 h2 ha2 hs2⟩
  intro w c hc
  rw [hfull] at hc
  have hc2 : (w, c) ∈ counter (filteredTexts (classify text)) :=
    (perm_sortDescBy _ _).mem_iff.mp hc
  rcases List.mem_map.mp hc2 with ⟨v, _, heq⟩
  injection heq with hv1 hv2
  rw [← hv2, hv1]

/-- C9 witness: a stream with case variants Cat (twice) and cat (once) emits
both casings as distinct keywords with separate counts. -/
theorem extract_keywords_case_sensitive_witness :
    ("Cat", 2) ∈ extract_keywords caseClassify "x" ((caseClassify "x").length : Int)
    ∧ ("cat", 1) ∈ extract_keywords caseClassify "x" ((caseClassify "x").length : Int) := by
  have h := extract_keywords_case_sensitive caseClassify "x"
    (plainTok "Cat") (plainTok "cat") (by decide) (by decide)
    rfl rfl rfl rfl (by decide) (by decide)
  exact ⟨h.2.1, h.2.2⟩

/-- C2 counterexample: with a classifier that is not stable under
preprocessing (re-classifying the joined filtered text marks the word as a
stopword), the keyword lines `summarize_papers` renders differ from
`extract_keywords` applied to the raw summary text. -/
theorem summarize_keywords_cex :
    summarize_keyword_lines cexClassify paperS
      ≠ (extract_keywords cexClassify paperS.summary 10).map keywordLine := by
  decide

/-- C2 (amended): the keyword lines `summarize_papers` renders for a paper
are `extract_keywords` applied to the preprocessed summary; they equal
`extract_keywords` on the raw summary whenever the classifier is stable under
preprocessing, i.e. re-classifying the space-joined filtered texts yields the
same filtered token stream. -/
theorem summarize_keywords_of_stable (classify : String → List Token) (paper : Paper)
    (h : filteredTexts (classify (preprocess_text classify paper.summary))
        = filteredTexts (classify paper.summary)) :
    summarize_keyword_lines classify paper
      = (extract_keywords classify paper.summary 10).map keywordLine := by
  unfold summarize_keyword_lines extract_keywords
  rw [h]

/-- C2 witness: the identity-like classifier is stable under preprocessing on
a one-word summary, and there the rendered lines match. -/
theorem summarize_keywords_of_stable_witness :
    filteredTexts (idClassify (preprocess_text idClassify paperCat.summary))
      = filteredTexts (idClassify paperCat.summary)
    ∧ summarize_keyword_lines idClassify paperCat
      = (extract_keywords idClassify paperCat.summary 10).map keywordLine :=
  ⟨by decide, summarize_keywords_of_stable idClassify paperCat (by decide)⟩

/-- Boolean prefix test as an existential over the remainder. -/
theorem isPrefixOf_iff_exists : ∀ (l1 l2 : List Char),
    l1.isPrefixOf l2 = true ↔ ∃ t, l1 ++ t = l2
  | [], l2 => by simp [List.isPrefixOf]
  | a :: l1, [] => by simp [List.isPrefixOf]
  | a :: l1, b :: l2 => by
    simp only [List.isPrefixOf, Bool.and_eq_true, beq_iff_eq,
      isPrefixOf_iff_exists l1 l2, List.cons_append, List.cons.injEq]
    constructor
    · rintro ⟨rfl, t, rfl⟩
      exact ⟨t, rfl, rfl⟩
    · rintro ⟨t, rfl, h⟩
      exact ⟨rfl, t, h⟩

/-- Boolean substring test as an existential split of the haystack. -/
theorem containsSub_iff (sub : List Char) :
    ∀ s : List Char, containsSub sub s = true ↔ ∃ pre post, pre ++ sub ++ post = s
  | [] => by
    simp only [containsSub, List.isEmpty_iff]
    constructor
    · rintro rfl
      exact ⟨[], [], rfl⟩
    · rintro ⟨pre, post, h⟩
      rcases List.append_eq_nil.mp h with ⟨h12, hpost⟩
      rcases List.append_eq_nil.mp h12 with ⟨hpre, hsub⟩
      exact hsub
  | c :: rest => by
    simp only [containsSub, Bool.or_eq_true, isPrefixOf_iff_exists,
      containsSub_iff sub rest]
    constructor
    · rintro (⟨t, ht⟩ | ⟨pre, post, h⟩)
      · exact ⟨[], t, by simpa using ht⟩
      · exact ⟨c :: pre, post, by simp only [List.cons_append, h]⟩
    · rintro ⟨pre, post, h⟩
      rcases pre with _ | ⟨c2, pre2⟩
      · left
        exact ⟨post, by simpa using h⟩
      · right
        rw [List.cons_append, List.cons_append] at h
        injection h with h1 h2
        exact ⟨pre2, post, h2⟩

/-- The empty needle is a substring of every haystack, as in Python. -/
theorem containsSub_nil_left : ∀ s : List Char, containsSub [] s = true
  | [] => rfl
  | c :: rest => by simp [containsSub, List.isPrefixOf]

/-- C6: `search_papers_by_title` keeps exactly the papers whose title
contains the keyword case-insensitively as a substring, in input order; the
empty keyword matches every paper, returning the input sequence. -/
theorem search_papers_by_title_substring (papers : List Paper) (keyword : String) :
    (∀ p, p ∈ search_papers_by_title papers keyword
        ↔ p ∈ papers ∧ ∃ pre post, pre ++ lowerStr keyword ++ post = lowerStr p.title)
    ∧ List.Sublist (search_papers_by_title papers keyword) papers
    ∧ search_papers_by_title papers "" = papers := by
  refine ⟨?_, List.filter_sublist _, ?_⟩
  · intro p
    rw [search_papers_by_title, List.mem_filter, containsSub_iff]
  · rw [search_papers_by_title]
    have hnil : lowerStr "" = [] := rfl
    simp only [hnil, containsSub_nil_left, List.filter_true]

/-- C5: `filter_papers_by_author` keeps exactly the papers with an author
entry case-insensitively equal to the author name (not a substring match),
in input order; when no author name is the empty string, the empty author
name matches nothing. -/
theorem filter_papers_by_author_exact (papers : List Paper) (author_name : String) :
    (∀ p, p ∈ filter_papers_by_author papers author_name
        ↔ p ∈ papers ∧ ∃ a ∈ p.authors, lowerStr a = lowerStr author_name)
    ∧ List.Sublist (filter_papers_by_author papers author_name) papers
    ∧ ((∀ p ∈ papers, ∀ a ∈ p.authors, a ≠ "") →
        filter_papers_by_author papers "" = []) := by
  refine ⟨?_, List.filter_sublist _, ?_⟩
  · intro p
    rw [filter_papers_by_author, List.mem_filter]
    constructor
    · rintro ⟨hp, hc⟩
      rcases List.contains_iff_exists_mem_beq.mp hc with ⟨b, hb, hab⟩
      rcases List.mem_map.mp hb with ⟨a, ha, rfl⟩
      exact ⟨hp, a, ha, (beq_iff_eq.mp hab).symm⟩
    · rintro ⟨hp, a, ha, hla⟩
      refine ⟨hp, List.contains_iff_exists_mem_beq.mpr ?_⟩
      exact ⟨lowerStr a, List.mem_map.mpr ⟨a, ha, rfl⟩, beq_iff_eq.mpr hla.symm⟩
  · intro hno
    rw [filter_papers_by_author, List.filter_eq_nil_iff]
    intro p hp hc
    rcases List.contains_iff_exists_mem_beq.mp hc with ⟨b, hb, hab⟩
    rcases List.mem_map.mp hb with ⟨a, ha, rfl⟩
    have hla : lowerStr a = lowerStr "" := (beq_iff_eq.mp hab).symm
    have hnil : lowerStr "" = [] := rfl
    rw [hnil] at hla
    have hd : a.data = [] := by simpa [lowerStr] using hla
    have ha0 : a = "" := by
      apply String.ext
      rw [hd]
    exact hno p hp a ha ha0

/-- C5 witness: jane doe matches the paper authored by Jane Doe, and with
no empty author names the empty author name filters everything out. -/
theorem filter_papers_by_author_exact_witness :
    (paperJane ∈ filter_papers_by_author demoPapers "jane doe"
      ↔ paperJane ∈ demoPapers
        ∧ ∃ a ∈ paperJane.authors, lowerStr a = lowerStr "jane doe")
    ∧ filter_papers_by_author demoPapers "" = [] :=
  ⟨(filter_papers_by_author_exact demoPapers "jane doe").1 paperJane,
    (filter_papers_by_author_exact demoPapers "").2.2 (by decide)⟩

/-- C4: `rank_papers_by_keyword` returns a permutation of its input, sorted
descending by the case-insensitive count of non-overlapping occurrences of
the keyword in the summary, and papers with equal counts keep their input
order (zero is an ordinary score, sorting last among equal scores). -/
theorem rank_papers_desc_stable (papers : List Paper) (keyword : String)
    (hne : keyword ≠ "") :
    List.Perm (rank_papers_by_keyword papers keyword) papers
    ∧ List.Sorted (keyRel (fun p => keyword_count keyword p.summary))
        (rank_papers_by_keyword papers keyword)
    ∧ ∀ k, (rank_papers_by_keyword papers keyword).filter
          (fun p => keyword_count keyword p.summary == k)
        = papers.filter (fun p => keyword_count keyword p.summary == k) :=
  ⟨perm_sortDescBy _ _, sorted_sortDescBy _ _,
    fun k => filter_sortDescBy_key _ k papers⟩

/-- C4 witness: ranking the demonstration papers by ai. -/
theorem rank_papers_desc_stable_witness :
    ("ai" : String) ≠ ""
    ∧ (List.Perm (rank_papers_by_keyword demoPapers "ai") demoPapers
      ∧ List.Sorted (keyRel (fun p => keyword_count "ai" p.summary))
          (rank_papers_by_keyword demoPapers "ai")
      ∧ ∀ k, (rank_papers_by_keyword demoPapers "ai").filter
            (fun p => keyword_count "ai" p.summary == k)
          = demoPapers.filter (fun p => keyword_count "ai" p.summary == k)) :=
  ⟨by decide, rank_papers_desc_stable demoPapers "ai" (by decide)⟩

/-- Python counts the empty needle `len(s) + 1` times. -/
theorem countOccs_nil_sub (s : List Char) : countOccs [] s = s.length + 1 := by
  cases s with
  | nil => simp [countOccs, List.isEmpty]
  | cons c rest => simp [countOccs, List.isEmpty]

/-- `orderedInsert` only inspects key comparisons. -/
theorem orderedInsert_keyRel_congr {α : Type} (key1 key2 : α → Nat)
    (h : ∀ a b, (key2 b ≤ key2 a) ↔ (key1 b ≤ key1 a)) (x : α) :
    ∀ l : List α,
      List.orderedInsert (keyRel key1) x l = List.orderedInsert (keyRel key2) x l
  | [] => rfl
  | y :: ys => by
    simp only [List.orderedInsert]
    by_cases hxy : keyRel key1 x y
    · rw [if_pos hxy, if_pos (show keyRel key2 x y from (h x y).mpr hxy)]
    · rw [if_neg hxy,
        if_neg (show ¬ keyRel key2 x y from fun hc => hxy ((h x y).mp hc)),
        orderedInsert_keyRel_congr key1 key2 h x ys]

/-- `sortDescBy` only inspects key comparisons. -/
theorem sortDescBy_congr {α : Type} (key1 key2 : α → Nat)
    (h : ∀ a b, (key2 b ≤ key2 a) ↔ (key1 b ≤ key1 a)) :
    ∀ l : List α, sortDescBy key1 l = sortDescBy key2 l
  | [] => rfl
  | x :: xs => by
    simp only [sortDescBy, List.insertionSort]
    rw [show List.insertionSort (keyRel key1) xs = sortDescBy key1 xs from rfl,
      sortDescBy_congr key1 key2 h xs]
    exact orderedInsert_keyRel_congr key1 key2 h x _

/-- C10: with the empty keyword, Python `str.count` returns the lowered
summary length plus one, so `rank_papers_by_keyword` sorts the papers by
summary length descending (stable); the empty keyword does not give all
papers an equal score. -/
theorem rank_empty_keyword (papers : List Paper) :
    (∀ s : String, keyword_count "" s = s.data.length + 1)
    ∧ rank_papers_by_keyword papers ""
        = sortDescBy (fun p => p.summary.data.length) papers := by
  have hk : ∀ s : String, keyword_count "" s = s.data.length + 1 := by
    intro s
    have hnil : lowerStr "" = [] := rfl
    rw [keyword_count, hnil, countOccs_nil_sub, lowerStr, List.length_map]
  refine ⟨hk, ?_⟩
  rw [rank_papers_by_keyword]
  apply sortDescBy_congr
  intro a b
  rw [hk a.summary, hk b.summary]
  omega
